import Mathlib

/-
Verification of the real-time motion-feature pipeline of the ESP32-S3 IMU
sketch (src/Arduino_Code/ESP32_S3___IAQ_pub_sub_01.ino, second sketch):
sliding-window RMS (`rmsPush`), activity classifier (`classifyLabel`),
single-pole high-pass coefficient (`hpAlpha`) and update, and the two
periodic triggers of `loop`.

Modelling conventions:
- C `float` values are embedded as exact rationals (`ℚ`); float literals in
  the source (0.03f, 3.1415926f, ...) are taken at their decimal value.
- The square root applied by `sqrtf` is kept at the statement level
  (`Real.sqrt` of the rational radicand); `rmsPush` returns the radicand
  `rmsSumSq / n`, exactly as computed by the source before `sqrtf`.
- For the classifier, a float value is modelled by `FloatQ`: either a finite
  value (a rational) or NaN, with the IEEE rule that every ordered
  comparison against NaN is false.
- `millis()` timestamps are naturals; the `(int32_t)(now - nextTick) >= 0`
  wraparound idiom is modelled as `nextTick ≤ now` (valid while the
  difference stays below 2^31 ms).
-/

/-! ## Constants from the source -/

def RMS_WIN : ℕ := 25

def DT_MS : ℕ := 10

def PUBLISH_EVERY_MS : ℕ := 50

def FS_HZ : ℚ := 100

def HP_FC_HZ : ℚ := 1/2

def TH_STRUCT : ℚ := 0.03

def TH_FOOT : ℚ := 0.10

def TH_KID : ℚ := 0.20

def TH_JUMP : ℚ := 0.35

/-! ## High-pass coefficient (`hpAlpha`, source lines 372–376) -/

/-- Embedding of `hpAlpha`: `dt = 1/fs`, `RC = 1/(2*3.1415926*fc)`,
returns `RC / (RC + dt)`. The source uses the literal `3.1415926f`. -/
def hpAlpha (fs fc : ℚ) : ℚ :=
  let dt := 1 / fs
  let RC := 1 / (2 * 3.1415926 * fc)
  RC / (RC + dt)

/-! ## Activity classifier (`classifyLabel`, source lines 458–464) -/

/-- Model of a C float for the classifier: a finite value or NaN. -/
inductive FloatQ where
  | nan : FloatQ
  | val : ℚ → FloatQ
deriving DecidableEq

/-- IEEE `>=` against a finite threshold: false whenever the left side is
NaN, the ordinary order on finite values. -/
def fge (x : FloatQ) (t : ℚ) : Bool :=
  match x with
  | FloatQ.nan => false
  | FloatQ.val q => decide (t ≤ q)

/-- Embedding of `classifyLabel`: highest threshold first, `>=` comparisons. -/
def classifyLabel (rms : FloatQ) : String :=
  if fge rms TH_JUMP then "JUMP"
  else if fge rms TH_KID then "PLAY"
  else if fge rms TH_FOOT then "FOOT"
  else if fge rms TH_STRUCT then "STRUCT"
  else "CALM"

/-! ## Sliding RMS window (`rmsBuf`/`rmsCount`/`rmsHead`/`rmsSumSq`,
source lines 361–366, and `rmsPush`, source lines 439–456) -/

/-- The four globals of the RMS window. `rmsBuf` is the 25-slot ring buffer
(a list of fixed length `RMS_WIN`). -/
structure RmsState where
  rmsBuf : List ℚ
  rmsCount : ℕ
  rmsHead : ℕ
  rmsSumSq : ℚ
deriving DecidableEq

/-- Initial state: zeroed buffer, `rmsCount = rmsHead = 0`, `rmsSumSq = 0`. -/
def rmsInit : RmsState :=
  { rmsBuf := List.replicate RMS_WIN 0, rmsCount := 0, rmsHead := 0, rmsSumSq := 0 }

/-- Embedding of `rmsPush`. Returns the updated state together with the
radicand `rmsSumSq / n` (the source returns `sqrtf` of it). -/
def rmsPush (sampleAbs : ℚ) (s : RmsState) : RmsState × ℚ :=
  let s2 := sampleAbs * sampleAbs
  let s1 :=
    if s.rmsCount < RMS_WIN then
      { rmsBuf := s.rmsBuf.set s.rmsHead sampleAbs
        rmsCount := s.rmsCount + 1
        rmsHead := (s.rmsHead + 1) % RMS_WIN
        rmsSumSq := s.rmsSumSq + s2 }
    else
      let old := s.rmsBuf.getD s.rmsHead 0
      { rmsBuf := s.rmsBuf.set s.rmsHead sampleAbs
        rmsCount := s.rmsCount
        rmsHead := (s.rmsHead + 1) % RMS_WIN
        rmsSumSq := s.rmsSumSq - old * old + s2 }
  let n : ℕ := if s1.rmsCount = 0 then 1 else s1.rmsCount
  (s1, s1.rmsSumSq / (n : ℚ))

/-- Radicand of the value returned for a given window state. -/
def rmsRet (s : RmsState) : ℚ :=
  s.rmsSumSq / ((if s.rmsCount = 0 then 1 else s.rmsCount : ℕ) : ℚ)

/-- Run a sequence of pushes from the initial window state. -/
def rmsRun (vs : List ℚ) : RmsState :=
  vs.foldl (fun s v => (rmsPush v s).1) rmsInit

/-! ## High-pass filter state and per-tick update (source lines 359, 591–594) -/

/-- The two filter globals `mag_prev` and `hp_prev`. -/
structure FilterState where
  mag_prev : ℚ
  hp_prev : ℚ
deriving DecidableEq

/-- One tick of the high-pass update from the loop body:
`hp = hp_alpha * (hp_prev + (mag - mag_prev)); hp_prev = hp; mag_prev = mag`. -/
def hpStepS (alpha m : ℚ) (st : FilterState) : FilterState :=
  { mag_prev := m, hp_prev := alpha * (st.hp_prev + (m - st.mag_prev)) }

/-- Iterate the update with a constant magnitude `m`. -/
def hpIter (alpha m : ℚ) (st : FilterState) : ℕ → FilterState
  | 0 => st
  | k + 1 => hpStepS alpha m (hpIter alpha m st k)

/-! ## Loop model (source lines 577–622) -/

/-- The record published per tick (`mag`, `hp_abs`, and the RMS radicand). -/
structure PipelineOutput where
  mag : ℚ
  hp_abs : ℚ
  rms : ℚ
deriving DecidableEq

/-- Pipeline state: filter globals plus RMS window. -/
structure PipeState where
  mag_prev : ℚ
  hp_prev : ℚ
  rms : RmsState
deriving DecidableEq

def pipeInit : PipeState := { mag_prev := 0, hp_prev := 0, rms := rmsInit }

/-- One successful sample tick of the pipeline: magnitude in, high-pass,
absolute value, RMS push; returns the new state and the tick's output. -/
def pipeStep (alpha m : ℚ) (p : PipeState) : PipeState × PipelineOutput :=
  let hp := alpha * (p.hp_prev + (m - p.mag_prev))
  let hpAbs := |hp|
  let pr := rmsPush hpAbs p.rms
  ({ mag_prev := m, hp_prev := hp, rms := pr.1 },
   { mag := m, hp_abs := hpAbs, rms := pr.2 })

/-- The mutable globals read and written by `loop`. -/
structure LoopState where
  hp_alpha : ℚ
  mag_prev : ℚ
  hp_prev : ℚ
  rms : RmsState
  nextTick : ℕ
  lastImuPublishMs : ℕ
deriving DecidableEq

/-- State right after `mpuInit` at time `t0`: `hp_alpha = hpAlpha(FS_HZ,
HP_FC_HZ)`, `nextTick = millis()`, all other globals at their initializers. -/
def initLoopState (t0 : ℕ) : LoopState :=
  { hp_alpha := hpAlpha FS_HZ HP_FC_HZ, mag_prev := 0, hp_prev := 0,
    rms := rmsInit, nextTick := t0, lastImuPublishMs := 0 }

def projPipe (s : LoopState) : PipeState :=
  { mag_prev := s.mag_prev, hp_prev := s.hp_prev, rms := s.rms }

/-- One pass of the IMU part of `loop` at time `now`. `read` is the result
of `readAccel_g`, reduced to the magnitude it yields (`none` = read failure).
If the sample tick is due, `nextTick` advances by `DT_MS`; on a successful
read the pipeline runs and, if `now - lastImuPublishMs >= PUBLISH_EVERY_MS`,
the fresh output is published and `lastImuPublishMs` is set to `now`. -/
def loopStep (now : ℕ) (read : Option ℚ) (s : LoopState) :
    LoopState × Option PipelineOutput :=
  if s.nextTick ≤ now then
    let s1 : LoopState := { s with nextTick := s.nextTick + DT_MS }
    match read with
    | none => (s1, none)
    | some m =>
        let pr := pipeStep s.hp_alpha m (projPipe s1)
        let s2 : LoopState :=
          { s1 with
            mag_prev := pr.1.mag_prev
            hp_prev := pr.1.hp_prev
            rms := pr.1.rms }
        if PUBLISH_EVERY_MS ≤ now - s2.lastImuPublishMs then
          ({ s2 with lastImuPublishMs := now }, some pr.2)
        else
          (s2, none)
  else (s, none)

/-- Run `loop` over a list of (time, read result) pairs, collecting the
published outputs in order. -/
def loopRun : List (ℕ × Option ℚ) → LoopState → List PipelineOutput
  | [], _ => []
  | (now, r) :: rest, s =>
      match loopStep now r s with
      | (s1, none) => loopRun rest s1
      | (s1, some o) => o :: loopRun rest s1

/-- Run the loop over a list of check times with a failing (or absent) IMU
read at each pass, counting how many sample ticks fire. With `read = none`
only the scheduling state (`nextTick`) moves, so this isolates the sample
trigger of `loop`. -/
def sampleFired : List ℕ → LoopState → LoopState × ℕ
  | [], s => (s, 0)
  | t :: rest, s =>
      let f : ℕ := if s.nextTick ≤ t then 1 else 0
      let r := sampleFired rest (loopStep t none s).1
      (r.1, r.2 + f)

/-- Value of `lastImuPublishMs` after the first `i` ticks of a run whose
ticks occur at times `t0, t0 + DT_MS, ...` with `t0 ≥ PUBLISH_EVERY_MS`
(publishes land on every 5th tick; `5 = PUBLISH_EVERY_MS / DT_MS`). -/
def lastPubOf (t0 i : ℕ) : ℕ :=
  if i = 0 then 0 else t0 + PUBLISH_EVERY_MS * ((i - 1) / 5)

/-- Check times `t0, t0 + DT_MS, ...` paired with successful reads of the
given magnitudes: the input of an ideally timed all-successful run. -/
def c7Inputs : ℕ → List ℚ → List (ℕ × Option ℚ)
  | _, [] => []
  | t, m :: ms => (t, some m) :: c7Inputs (t + DT_MS) ms

/-- The outputs an ideally timed run is expected to publish: the pipeline
trace of the magnitudes, keeping exactly the output of every tick whose
index is divisible by 5, taken from that very tick (no averaging). -/
def expectedEmissions (alpha : ℚ) : ℕ → PipeState → List ℚ → List PipelineOutput
  | _, _, [] => []
  | i, p, m :: ms =>
      let pr := pipeStep alpha m p
      (if i % 5 = 0 then [pr.2] else []) ++ expectedEmissions alpha (i + 1) pr.1 ms

/-- Number of indices `i, i+1, ..., i+n-1` divisible by 5. -/
def expectedCount : ℕ → ℕ → ℕ
  | _, 0 => 0
  | i, n + 1 => (if i % 5 = 0 then 1 else 0) + expectedCount (i + 1) n

/-- Iterate the filter update over a list of magnitudes (used to compare a
run containing a failed tick with one that never had it). -/
def hpRun (alpha : ℚ) (ms : List ℚ) (st : FilterState) : FilterState :=
  ms.foldl (fun s m => hpStepS alpha m s) st

/-! ## Claim C10 -/

/-- Claim C10: `classifyLabel` is total and returns exactly one of the five
labels for every input, and a NaN RMS value fails every `>=` comparison and
classifies as CALM. -/
theorem classifyLabel_total_nan :
    (∀ x : FloatQ,
      classifyLabel x = "JUMP" ∨ classifyLabel x = "PLAY" ∨
      classifyLabel x = "FOOT" ∨ classifyLabel x = "STRUCT" ∨
      classifyLabel x = "CALM") ∧
    classifyLabel FloatQ.nan = "CALM" := by
  constructor
  · intro x
    unfold classifyLabel
    split_ifs <;> simp
  · rfl

/-! ## Claim C5 -/

/-- Claim C5: the classifier is a pure function of the RMS value evaluated
highest-threshold-first against the ascending thresholds
0.03 < 0.10 < 0.20 < 0.35, each with a closed lower bound; at a threshold
the higher label wins (`rms = 0.10` yields FOOT). -/
theorem classifyLabel_thresholds (q : ℚ) :
    (TH_STRUCT < TH_FOOT ∧ TH_FOOT < TH_KID ∧ TH_KID < TH_JUMP ∧
      TH_STRUCT = 3/100 ∧ TH_FOOT = 1/10 ∧ TH_KID = 1/5 ∧ TH_JUMP = 7/20) ∧
    (TH_JUMP ≤ q → classifyLabel (FloatQ.val q) = "JUMP") ∧
    (TH_KID ≤ q → q < TH_JUMP → classifyLabel (FloatQ.val q) = "PLAY") ∧
    (TH_FOOT ≤ q → q < TH_KID → classifyLabel (FloatQ.val q) = "FOOT") ∧
    (TH_STRUCT ≤ q → q < TH_FOOT → classifyLabel (FloatQ.val q) = "STRUCT") ∧
    (q < TH_STRUCT → classifyLabel (FloatQ.val q) = "CALM") ∧
    classifyLabel (FloatQ.val TH_FOOT) = "FOOT" ∧
    classifyLabel (FloatQ.val TH_STRUCT) = "STRUCT" ∧
    classifyLabel (FloatQ.val TH_KID) = "PLAY" ∧
    classifyLabel (FloatQ.val TH_JUMP) = "JUMP" := by
  have hs : TH_STRUCT = 3/100 := by norm_num [TH_STRUCT]
  have hf : TH_FOOT = 1/10 := by norm_num [TH_FOOT]
  have hk : TH_KID = 1/5 := by norm_num [TH_KID]
  have hj : TH_JUMP = 7/20 := by norm_num [TH_JUMP]
  have key : ∀ r : ℚ, classifyLabel (FloatQ.val r) =
      if TH_JUMP ≤ r then "JUMP"
      else if TH_KID ≤ r then "PLAY"
      else if TH_FOOT ≤ r then "FOOT"
      else if TH_STRUCT ≤ r then "STRUCT"
      else "CALM" := by
    intro r
    simp [classifyLabel, fge]
  refine ⟨⟨by rw [hs, hf]; norm_num, by rw [hf, hk]; norm_num,
           by rw [hk, hj]; norm_num, hs, hf, hk, hj⟩, ?_, ?_, ?_, ?_, ?_, ?_, ?_, ?_, ?_⟩
  · intro h1; rw [key]; rw [if_pos h1]
  · intro h1 h2; rw [key, if_neg (by linarith), if_pos h1]
  · intro h1 h2
    rw [key, if_neg (by simp only [hs, hf, hk, hj] at *; linarith),
      if_neg (by linarith), if_pos h1]
  · intro h1 h2
    rw [key, if_neg (by simp only [hs, hf, hk, hj] at *; linarith),
      if_neg (by simp only [hs, hf, hk, hj] at *; linarith),
      if_neg (by linarith), if_pos h1]
  · intro h1
    rw [key, if_neg (by simp only [hs, hf, hk, hj] at *; linarith),
      if_neg (by simp only [hs, hf, hk, hj] at *; linarith),
      if_neg (by simp only [hs, hf, hk, hj] at *; linarith), if_neg (by linarith)]
  · rw [key, if_neg (by simp only [hs, hf, hk, hj]; norm_num),
      if_neg (by simp only [hs, hf, hk, hj]; norm_num), if_pos le_rfl]
  · rw [key, if_neg (by simp only [hs, hf, hk, hj]; norm_num),
      if_neg (by simp only [hs, hf, hk, hj]; norm_num),
      if_neg (by simp only [hs, hf, hk, hj]; norm_num), if_pos le_rfl]
  · rw [key, if_neg (by simp only [hs, hf, hk, hj]; norm_num), if_pos le_rfl]
  · rw [key, if_pos le_rfl]

/-- Witness for C5 at the boundary input `rms = 0.10`. -/
theorem classifyLabel_thresholds_witness :
    TH_FOOT ≤ (1/10 : ℚ) ∧ (1/10 : ℚ) < TH_KID ∧
    classifyLabel (FloatQ.val (1/10)) = "FOOT" :=
  ⟨by norm_num [TH_FOOT], by norm_num [TH_KID],
    (classifyLabel_thresholds (1/10)).2.2.2.1 (by norm_num [TH_FOOT])
      (by norm_num [TH_KID])⟩

/-! ## Claim C1 -/

/-- The divisor `n = rmsCount ? rmsCount : 1` of the source equals
`max rmsCount 1`. -/
theorem if_zero_one_eq_max (n : ℕ) : (if n = 0 then 1 else n) = max n 1 := by
  cases n with
  | zero => rfl
  | succ k => simp [Nat.max_eq_left (Nat.succ_le_succ (Nat.zero_le k))]

/-- Claim C1: with fewer than `W = 25` samples seen, `rmsPush v` stores `v`
at the write position, adds `v²` to the running sum, advances the write
position mod `W` and increments the count; at capacity it first removes the
squared value being overwritten, then stores `v`, adds `v²`, advances the
write position, and the count stays `W`; in every case the returned radicand
is `rmsSumSq / max(rmsCount, 1)` (the source returns its square root), so
the divisor is never zero. -/
theorem rmsPush_step (v : ℚ) (s : RmsState) :
    (s.rmsCount < RMS_WIN →
      (rmsPush v s).1.rmsBuf = s.rmsBuf.set s.rmsHead v ∧
      (rmsPush v s).1.rmsSumSq = s.rmsSumSq + v * v ∧
      (rmsPush v s).1.rmsHead = (s.rmsHead + 1) % RMS_WIN ∧
      (rmsPush v s).1.rmsCount = s.rmsCount + 1) ∧
    (s.rmsCount = RMS_WIN →
      (rmsPush v s).1.rmsBuf = s.rmsBuf.set s.rmsHead v ∧
      (rmsPush v s).1.rmsSumSq =
        s.rmsSumSq - s.rmsBuf.getD s.rmsHead 0 * s.rmsBuf.getD s.rmsHead 0 + v * v ∧
      (rmsPush v s).1.rmsHead = (s.rmsHead + 1) % RMS_WIN ∧
      (rmsPush v s).1.rmsCount = RMS_WIN) ∧
    (rmsPush v s).2 =
      (rmsPush v s).1.rmsSumSq / ((max (rmsPush v s).1.rmsCount 1 : ℕ) : ℚ) ∧
    0 < max (rmsPush v s).1.rmsCount 1 := by
  refine ⟨?_, ?_, ?_, ?_⟩
  · intro h
    simp only [rmsPush, if_pos h]
    exact ⟨trivial, trivial, trivial, trivial⟩
  · intro h
    have hn : ¬ s.rmsCount < RMS_WIN := by omega
    simp only [rmsPush, if_neg hn]
    exact ⟨trivial, trivial, trivial, h⟩
  · simp only [rmsPush, if_zero_one_eq_max]
  · exact lt_max_of_lt_right Nat.one_pos

/-- Witness for C1: one push into the fresh window takes the under-capacity
branch and produces count 1, sum `2·2`, head 1. -/
theorem rmsPush_step_witness :
    rmsInit.rmsCount < RMS_WIN ∧
    (rmsPush 2 rmsInit).1.rmsSumSq = rmsInit.rmsSumSq + 2 * 2 ∧
    (rmsPush 2 rmsInit).1.rmsCount = rmsInit.rmsCount + 1 :=
  ⟨by decide, ((rmsPush_step 2 rmsInit).1 (by decide)).2.1,
    ((rmsPush_step 2 rmsInit).1 (by decide)).2.2.2⟩

/-! ## Claim C4 -/

/-- The coefficient computed by the source, as an explicit rational. -/
theorem hpAlpha_value : hpAlpha FS_HZ HP_FC_HZ = 500000000 / 515707963 := by
  norm_num [hpAlpha, FS_HZ, HP_FC_HZ]

/-- Claim C4: `hpAlpha FS_HZ HP_FC_HZ` is within 10⁻⁶ of the exact closed
form `RC/(RC + dt)` with `RC = 1/(2π·fc)`, `dt = 1/fs`, for `fs = 100`,
`fc = 0.5`; `mpuInit` stores it once and `loop` never changes it; each due
tick with a successful read of magnitude `m` sets `hp_prev` to
`alpha·(hp_prev + (m − mag_prev))` and `mag_prev` to `m`, returning that
`hp`; and from the zeroed initial filter state the first output is
`alpha·m`. -/
theorem hpAlpha_coefficient (t0 now : ℕ) (r : Option ℚ) (m alpha : ℚ)
    (s : LoopState) (hdue : s.nextTick ≤ now) :
    |((hpAlpha FS_HZ HP_FC_HZ : ℚ) : ℝ) -
      (1 / (2 * Real.pi * (1 / 2))) / (1 / (2 * Real.pi * (1 / 2)) + 1 / 100)|
      < 1 / 1000000 ∧
    (initLoopState t0).hp_alpha = hpAlpha FS_HZ HP_FC_HZ ∧
    ((loopStep now r s).1).hp_alpha = s.hp_alpha ∧
    (((loopStep now (some m) s).1).hp_prev
        = s.hp_alpha * (s.hp_prev + (m - s.mag_prev)) ∧
      ((loopStep now (some m) s).1).mag_prev = m) ∧
    (hpStepS alpha m { mag_prev := 0, hp_prev := 0 }).hp_prev = alpha * m := by
  have hpi1 : (3.141592 : ℝ) < Real.pi := Real.pi_gt_d6
  have hpi2 : Real.pi < 3.141593 := Real.pi_lt_d6
  have hpipos : (0 : ℝ) < Real.pi := Real.pi_pos
  refine ⟨?_, rfl, ?_, ?_, ?_⟩
  · have hcast : ((hpAlpha FS_HZ HP_FC_HZ : ℚ) : ℝ) = 500000000 / 515707963 := by
      rw [hpAlpha_value]; push_cast; ring
    have hform : (1 / (2 * Real.pi * (1 / 2))) / (1 / (2 * Real.pi * (1 / 2)) + 1 / 100)
        = 100 / (100 + Real.pi) := by
      have h1 : Real.pi ≠ 0 := ne_of_gt hpipos
      have h2 : (100 : ℝ) + Real.pi ≠ 0 := by positivity
      have h3 : 1 / (2 * Real.pi * (1 / 2)) + 1 / 100 ≠ 0 := by
        have hx : (0 : ℝ) < 1 / (2 * Real.pi * (1 / 2)) := by positivity
        linarith
      field_simp
    have hlt1 : (100 : ℝ) / (100 + 3.141593) < 100 / (100 + Real.pi) :=
      div_lt_div_of_pos_left (by norm_num) (by linarith) (by linarith)
    have hlt2 : (100 : ℝ) / (100 + Real.pi) < 100 / (100 + 3.141592) :=
      div_lt_div_of_pos_left (by norm_num) (by linarith) (by linarith)
    rw [hcast, hform, abs_lt]
    constructor
    · have : (-(1 / 1000000) : ℝ) < 500000000 / 515707963 - 100 / (100 + 3.141592) := by
        norm_num
      linarith
    · have : (500000000 / 515707963 : ℝ) - 100 / (100 + 3.141593) < 1 / 1000000 := by
        norm_num
      linarith
  · by_cases h : s.nextTick ≤ now
    · cases r with
      | none => simp [loopStep, h]
      | some mv =>
          simp only [loopStep, if_pos h]
          split <;> rfl
    · simp [loopStep, h]
  · constructor <;>
      · simp only [loopStep, if_pos hdue, pipeStep, projPipe]
        split <;> rfl
  · simp only [hpStepS]
    ring

/-- Witness for C4: the first due tick from the freshly initialized state. -/
theorem hpAlpha_coefficient_witness :
    (initLoopState 0).nextTick ≤ 10 ∧
    ((loopStep 10 (some 1) (initLoopState 0)).1).hp_prev
      = (initLoopState 0).hp_alpha *
        ((initLoopState 0).hp_prev + (1 - (initLoopState 0).mag_prev)) :=
  ⟨by decide,
    ((hpAlpha_coefficient 0 10 none 1 1 (initLoopState 0) (by decide)).2.2.2.1).1⟩

/-! ## Claim C8 -/

/-- Claim C8: a sample tick whose accelerometer read fails is skipped
atomically: the filter globals and the whole RMS window are unchanged,
nothing is published and `lastImuPublishMs` is untouched (only `nextTick`
advances, as for every due tick), and a later successful tick produces
exactly the same pipeline state and emission as it would have produced had
the failed tick never happened. -/
theorem failed_read_isolation (now now2 : ℕ) (m : ℚ) (s : LoopState)
    (hdue : s.nextTick ≤ now) (hdue2 : s.nextTick + DT_MS ≤ now2) :
    (loopStep now none s).2 = none ∧
    (loopStep now none s).1.mag_prev = s.mag_prev ∧
    (loopStep now none s).1.hp_prev = s.hp_prev ∧
    (loopStep now none s).1.rms = s.rms ∧
    (loopStep now none s).1.lastImuPublishMs = s.lastImuPublishMs ∧
    (loopStep now none s).1.nextTick = s.nextTick + DT_MS ∧
    (loopStep now2 (some m) (loopStep now none s).1).1.mag_prev
      = (loopStep now2 (some m) s).1.mag_prev ∧
    (loopStep now2 (some m) (loopStep now none s).1).1.hp_prev
      = (loopStep now2 (some m) s).1.hp_prev ∧
    (loopStep now2 (some m) (loopStep now none s).1).1.rms
      = (loopStep now2 (some m) s).1.rms ∧
    (loopStep now2 (some m) (loopStep now none s).1).2
      = (loopStep now2 (some m) s).2 := by
  have hs1 : (loopStep now none s).1 = { s with nextTick := s.nextTick + DT_MS } := by
    simp [loopStep, hdue]
  have h1 : s.nextTick ≤ now2 := le_trans (Nat.le_add_right _ _) hdue2
  refine ⟨by simp [loopStep, hdue], by rw [hs1], by rw [hs1], by rw [hs1],
    by rw [hs1], by rw [hs1], ?_, ?_, ?_, ?_⟩ <;>
    · rw [hs1]
      by_cases hp : PUBLISH_EVERY_MS ≤ now2 - s.lastImuPublishMs <;>
        simp [loopStep, hdue2, h1, hp, pipeStep, projPipe]

/-- Witness for C8 at a concrete failed tick. -/
theorem failed_read_isolation_witness :
    (initLoopState 0).nextTick ≤ 0 ∧ (initLoopState 0).nextTick + DT_MS ≤ 10 ∧
    (loopStep 0 none (initLoopState 0)).2 = none ∧
    (loopStep 0 none (initLoopState 0)).1.rms = (initLoopState 0).rms ∧
    (loopStep 10 (some 1) (loopStep 0 none (initLoopState 0)).1).2
      = (loopStep 10 (some 1) (initLoopState 0)).2 :=
  ⟨by decide, by decide,
    (failed_read_isolation 0 10 1 (initLoopState 0) (by decide) (by decide)).1,
    (failed_read_isolation 0 10 1 (initLoopState 0) (by decide) (by decide)).2.2.2.1,
    (failed_read_isolation 0 10 1 (initLoopState 0) (by decide)
      (by decide)).2.2.2.2.2.2.2.2.2⟩

/-! ## Claim C9 -/

/-- Counterexample to C9 as stated: from the starting state
`mag_prev = 5, hp_prev = 1`, the first tick of the constant magnitude 3
outputs `alpha·(1 + (3 − 5)) = −alpha`, which is not `alpha` times the
previous high-pass output `1`; so it is not true that from any starting
state each tick multiplies the output by `alpha`. -/
theorem hp_const_first_tick_counterexample :
    (hpStepS (hpAlpha FS_HZ HP_FC_HZ) 3 { mag_prev := 5, hp_prev := 1 }).hp_prev ≠
      hpAlpha FS_HZ HP_FC_HZ * (FilterState.mk 5 1).hp_prev := by
  simp only [hpStepS]
  rw [hpAlpha_value]
  norm_num

/-- Claim C9 (amended): feeding a constant magnitude `m` from any starting
state, the first tick outputs `alpha·(hp_prev + (m − mag_prev))` and every
tick after the first multiplies the high-pass output by
`alpha = hpAlpha FS_HZ HP_FC_HZ` (which lies strictly between 0 and 1), so
the output after `1 + k` ticks is `alpha^k` times the first output and its
magnitude falls below any positive tolerance after sufficiently many
ticks. -/
theorem hp_dc_rejection (m : ℚ) (st : FilterState) :
    (0 < hpAlpha FS_HZ HP_FC_HZ ∧ hpAlpha FS_HZ HP_FC_HZ < 1) ∧
    (hpIter (hpAlpha FS_HZ HP_FC_HZ) m st 1).hp_prev
      = hpAlpha FS_HZ HP_FC_HZ * (st.hp_prev + (m - st.mag_prev)) ∧
    (∀ k, 1 ≤ k →
      (hpIter (hpAlpha FS_HZ HP_FC_HZ) m st (k + 1)).hp_prev
        = hpAlpha FS_HZ HP_FC_HZ * (hpIter (hpAlpha FS_HZ HP_FC_HZ) m st k).hp_prev) ∧
    (∀ k, (hpIter (hpAlpha FS_HZ HP_FC_HZ) m st (1 + k)).hp_prev
        = hpAlpha FS_HZ HP_FC_HZ ^ k * (hpIter (hpAlpha FS_HZ HP_FC_HZ) m st 1).hp_prev) ∧
    (∀ ε : ℚ, 0 < ε → ∃ N, ∀ k, N ≤ k →
      |(hpIter (hpAlpha FS_HZ HP_FC_HZ) m st k).hp_prev| ≤ ε) := by
  have ha0 : 0 < hpAlpha FS_HZ HP_FC_HZ := by rw [hpAlpha_value]; norm_num
  have ha1 : hpAlpha FS_HZ HP_FC_HZ < 1 := by rw [hpAlpha_value]; norm_num
  have hmult : ∀ k, 1 ≤ k →
      (hpIter (hpAlpha FS_HZ HP_FC_HZ) m st (k + 1)).hp_prev
        = hpAlpha FS_HZ HP_FC_HZ * (hpIter (hpAlpha FS_HZ HP_FC_HZ) m st k).hp_prev := by
    intro k hk
    obtain ⟨j, rfl⟩ : ∃ j, k = j + 1 := ⟨k - 1, by omega⟩
    simp only [hpIter, hpStepS]
    ring
  have hclosed : ∀ k, (hpIter (hpAlpha FS_HZ HP_FC_HZ) m st (1 + k)).hp_prev
      = hpAlpha FS_HZ HP_FC_HZ ^ k * (hpIter (hpAlpha FS_HZ HP_FC_HZ) m st 1).hp_prev := by
    intro k
    induction k with
    | zero => simp
    | succ j ih =>
        have hstep := hmult (1 + j) (by omega)
        have hidx : 1 + (j + 1) = (1 + j) + 1 := by omega
        rw [hidx, hstep, ih]
        ring
  refine ⟨⟨ha0, ha1⟩, rfl, hmult, hclosed, ?_⟩
  intro ε hε
  have hC : 0 ≤ |(hpIter (hpAlpha FS_HZ HP_FC_HZ) m st 1).hp_prev| := abs_nonneg _
  obtain ⟨n, hn⟩ := exists_pow_lt_of_lt_one
    (show (0 : ℚ) < ε / (|(hpIter (hpAlpha FS_HZ HP_FC_HZ) m st 1).hp_prev| + 1) by positivity)
    ha1
  refine ⟨n + 1, ?_⟩
  intro k hk
  obtain ⟨j, rfl⟩ : ∃ j, k = 1 + j := ⟨k - 1, by omega⟩
  have hj : n ≤ j := by omega
  calc |(hpIter (hpAlpha FS_HZ HP_FC_HZ) m st (1 + j)).hp_prev|
      = hpAlpha FS_HZ HP_FC_HZ ^ j * |(hpIter (hpAlpha FS_HZ HP_FC_HZ) m st 1).hp_prev| := by
        rw [hclosed j, abs_mul, abs_pow, abs_of_nonneg ha0.le]
    _ ≤ hpAlpha FS_HZ HP_FC_HZ ^ n * |(hpIter (hpAlpha FS_HZ HP_FC_HZ) m st 1).hp_prev| :=
        mul_le_mul_of_nonneg_right (pow_le_pow_of_le_one ha0.le ha1.le hj) hC
    _ ≤ (ε / (|(hpIter (hpAlpha FS_HZ HP_FC_HZ) m st 1).hp_prev| + 1)) *
          |(hpIter (hpAlpha FS_HZ HP_FC_HZ) m st 1).hp_prev| :=
        mul_le_mul_of_nonneg_right hn.le hC
    _ ≤ ε := by
        rw [div_mul_eq_mul_div, div_le_iff₀ (by positivity)]
        nlinarith

/-- Witness for C9 (amended) at `m = 1` from the zeroed filter state. -/
theorem hp_dc_rejection_witness :
    (1 : ℕ) ≤ 1 ∧
    (hpIter (hpAlpha FS_HZ HP_FC_HZ) 1 { mag_prev := 0, hp_prev := 0 } 2).hp_prev
      = hpAlpha FS_HZ HP_FC_HZ *
        (hpIter (hpAlpha FS_HZ HP_FC_HZ) 1 { mag_prev := 0, hp_prev := 0 } 1).hp_prev ∧
    (0 : ℚ) < 1 ∧
    ∃ N, ∀ k, N ≤ k →
      |(hpIter (hpAlpha FS_HZ HP_FC_HZ) 1 { mag_prev := 0, hp_prev := 0 } k).hp_prev| ≤ 1 :=
  ⟨le_rfl, (hp_dc_rejection 1 { mag_prev := 0, hp_prev := 0 }).2.2.1 1 le_rfl, one_pos,
    (hp_dc_rejection 1 { mag_prev := 0, hp_prev := 0 }).2.2.2.2 1 one_pos⟩

/-! ## Claim C6 -/

/-- A pass with a failed (or absent) read only moves `nextTick`. -/
theorem loopStep_none (now : ℕ) (s : LoopState) :
    loopStep now none s
      = (if s.nextTick ≤ now then { s with nextTick := s.nextTick + DT_MS } else s,
         none) := by
  by_cases h : s.nextTick ≤ now <;> simp [loopStep, h]

/-- Deadline/count invariant of the sample trigger: if successive check
times never move backwards and are never more than one period apart, and the
first check is within one period of the pending deadline, then after the run
`nextTick` has advanced by exactly one period per fired tick and stays
within one period of the last check time. -/
theorem sampleFired_bound :
    ∀ (ts : List ℕ) (s : LoopState) (t : ℕ),
      t ≤ s.nextTick + DT_MS → s.nextTick ≤ t + DT_MS →
      List.Chain (fun a b => a ≤ b ∧ b ≤ a + DT_MS) t ts →
      (sampleFired ts s).1.nextTick = s.nextTick + DT_MS * (sampleFired ts s).2 ∧
      ts.getLastD t ≤ (sampleFired ts s).1.nextTick + DT_MS ∧
      (sampleFired ts s).1.nextTick ≤ ts.getLastD t + DT_MS := by
  intro ts
  induction ts with
  | nil =>
      intro s t h1 h2 _
      simp only [sampleFired, List.getLastD_nil]
      omega
  | cons t1 rest ih =>
      intro s t h1 h2 hchain
      rw [List.chain_cons] at hchain
      obtain ⟨⟨htt1, ht1t⟩, hrest⟩ := hchain
      simp only [sampleFired, loopStep_none, List.getLastD_cons]
      by_cases hf : s.nextTick ≤ t1
      · rw [if_pos hf, if_pos hf]
        have := ih { s with nextTick := s.nextTick + DT_MS } t1
          (by simp only [DT_MS] at *; omega) (by simp only [DT_MS] at *; omega) hrest
        simp only [DT_MS] at *
        omega
      · rw [if_neg hf, if_neg hf]
        have := ih s t1
          (by simp only [DT_MS] at *; omega) (by simp only [DT_MS] at *; omega) hrest
        simp only [DT_MS] at *
        omega

/-- Counterexample to C6 as stated: the publish trigger is NOT drift-free.
Start with `lastImuPublishMs = 0` (previous publish deadline `0 +
PUBLISH_EVERY_MS = 50`) and let a due sample tick with a successful read
happen at `now = 57`: the code stores `lastImuPublishMs = 57` — the current
time — so the next publish deadline becomes `107`, not the
previous-deadline-plus-period `100` that the drift-free rule demands. -/
theorem publish_trigger_counterexample :
    ((loopStep 57 (some 1)
        { hp_alpha := hpAlpha FS_HZ HP_FC_HZ, mag_prev := 0, hp_prev := 0,
          rms := rmsInit, nextTick := 50, lastImuPublishMs := 0 }).1).lastImuPublishMs
      = 57 ∧
    (0 + PUBLISH_EVERY_MS : ℕ) = 50 ∧ (57 : ℕ) ≠ 50 := by
  refine ⟨by decide, rfl, by decide⟩

/-- Claim C6 (amended): the sample tick is drift-free — when it fires, its
next due time is the previous due time plus the fixed period (a past-due
deadline fires immediately at the next check), and over any run whose
checks are at most one period apart the fired count times the period stays
within one period of the elapsed time. The publish trigger is not: when it
fires it records the current time, so its next due time is `now +
PUBLISH_EVERY_MS`, not the previous due time plus the period. -/
theorem scheduling_amended (ts : List ℕ) (now : ℕ) (r : Option ℚ) (m : ℚ)
    (s s' s'' : LoopState)
    (hchain : List.Chain (fun a b => a ≤ b ∧ b ≤ a + DT_MS) s'.nextTick ts)
    (hdue : s''.nextTick ≤ now)
    (hpub : PUBLISH_EVERY_MS ≤ now - s''.lastImuPublishMs) :
    ((loopStep now r s).1).nextTick
      = (if s.nextTick ≤ now then s.nextTick + DT_MS else s.nextTick) ∧
    (ts.getLastD s'.nextTick ≤ s'.nextTick + DT_MS * (sampleFired ts s').2 + DT_MS ∧
      s'.nextTick + DT_MS * (sampleFired ts s').2 ≤ ts.getLastD s'.nextTick + DT_MS) ∧
    ((loopStep now (some m) s'').1).lastImuPublishMs = now := by
  refine ⟨?_, ?_, ?_⟩
  · by_cases h : s.nextTick ≤ now
    · cases r with
      | none => simp [loopStep, h]
      | some mv =>
          simp only [loopStep, if_pos h, if_pos h]
          split <;> rfl
    · simp [loopStep, h]
  · have hb := sampleFired_bound ts s' s'.nextTick
      (Nat.le_add_right _ _) (Nat.le_add_right _ _) hchain
    omega
  · simp only [loopStep, if_pos hdue]
    rw [if_pos hpub]

/-- Witness for C6 (amended) on a concrete jittered but dense check run and
a concrete due publish. -/
theorem scheduling_amended_witness :
    List.Chain (fun a b => a ≤ b ∧ b ≤ a + DT_MS)
      (initLoopState 100).nextTick [100, 105, 115] ∧
    (LoopState.mk (hpAlpha FS_HZ HP_FC_HZ) 0 0 rmsInit 50 0).nextTick ≤ 57 ∧
    PUBLISH_EVERY_MS
      ≤ 57 - (LoopState.mk (hpAlpha FS_HZ HP_FC_HZ) 0 0 rmsInit 50 0).lastImuPublishMs ∧
    [100, 105, 115].getLastD (initLoopState 100).nextTick
      ≤ (initLoopState 100).nextTick
        + DT_MS * (sampleFired [100, 105, 115] (initLoopState 100)).2 + DT_MS ∧
    ((loopStep 57 (some 1)
        (LoopState.mk (hpAlpha FS_HZ HP_FC_HZ) 0 0 rmsInit 50 0)).1).lastImuPublishMs
      = 57 :=
  ⟨by norm_num [List.chain_cons, initLoopState, DT_MS], by decide, by decide,
    (scheduling_amended [100, 105, 115] 57 none 1 (initLoopState 0) (initLoopState 100)
      (LoopState.mk (hpAlpha FS_HZ HP_FC_HZ) 0 0 rmsInit 50 0)
      (by norm_num [List.chain_cons, initLoopState, DT_MS]) (by decide) (by decide)).2.1.1,
    (scheduling_amended [100, 105, 115] 57 none 1 (initLoopState 0) (initLoopState 100)
      (LoopState.mk (hpAlpha FS_HZ HP_FC_HZ) 0 0 rmsInit 50 0)
      (by norm_num [List.chain_cons, initLoopState, DT_MS]) (by decide) (by decide)).2.2⟩

/-! ## Ring-buffer characterization (for C2 and C3) -/

theorem getD_set_eq (l : List ℚ) (i : ℕ) (a : ℚ) (h : i < l.length) :
    (l.set i a).getD i 0 = a := by
  simp [List.getD_eq_getElem?_getD, List.getElem?_set, h]

theorem getD_set_ne (l : List ℚ) (i j : ℕ) (a : ℚ) (h : i ≠ j) :
    (l.set i a).getD j 0 = l.getD j 0 := by
  simp [List.getD_eq_getElem?_getD, List.getElem?_set, h]

theorem getD_append_lt (l l' : List ℚ) (j : ℕ) (h : j < l.length) :
    (l ++ l').getD j 0 = l.getD j 0 := by
  simp [List.getD_eq_getElem?_getD, List.getElem?_append, h]

theorem getD_append_last (l : List ℚ) (v : ℚ) :
    (l ++ [v]).getD l.length 0 = v := by
  simp [List.getD_eq_getElem?_getD, List.getElem?_append]

theorem getD_drop (l : List ℚ) (n j : ℕ) :
    (l.drop n).getD j 0 = l.getD (n + j) 0 := by
  simp [List.getD_eq_getElem?_getD, List.getElem?_drop]

theorem rmsRun_append (vs : List ℚ) (v : ℚ) :
    rmsRun (vs ++ [v]) = (rmsPush v (rmsRun vs)).1 := by
  simp [rmsRun, List.foldl_append]

theorem rmsPush_lt_state (v : ℚ) (s : RmsState) (h : s.rmsCount < RMS_WIN) :
    (rmsPush v s).1 =
      { rmsBuf := s.rmsBuf.set s.rmsHead v, rmsCount := s.rmsCount + 1,
        rmsHead := (s.rmsHead + 1) % RMS_WIN, rmsSumSq := s.rmsSumSq + v * v } := by
  simp [rmsPush, h]

theorem rmsPush_ge_state (v : ℚ) (s : RmsState) (h : ¬ s.rmsCount < RMS_WIN) :
    (rmsPush v s).1 =
      { rmsBuf := s.rmsBuf.set s.rmsHead v, rmsCount := s.rmsCount,
        rmsHead := (s.rmsHead + 1) % RMS_WIN,
        rmsSumSq := s.rmsSumSq
          - s.rmsBuf.getD s.rmsHead 0 * s.rmsBuf.getD s.rmsHead 0 + v * v } := by
  simp [rmsPush, h]

/-- Full characterization of the window state after pushing `vs` from the
initial state, writing `L` for the number of pushes and `k = min L W` for
the number of occupied slots: the buffer keeps its length, the count is
`k`, the head is `L mod W`, slot `(L + W - k + j) mod W` holds the `j`-th
oldest retained value `vs[L - k + j]`, and the running sum equals the sum
of squares of the occupied slots, which is the sum of squares of the
trailing `k` pushed values. -/
theorem rmsRun_char (vs : List ℚ) :
    (rmsRun vs).rmsBuf.length = RMS_WIN ∧
    (rmsRun vs).rmsCount = min vs.length RMS_WIN ∧
    (rmsRun vs).rmsHead = vs.length % RMS_WIN ∧
    (∀ j < min vs.length RMS_WIN,
      (rmsRun vs).rmsBuf.getD
          ((vs.length + RMS_WIN - min vs.length RMS_WIN + j) % RMS_WIN) 0
        = vs.getD (vs.length - min vs.length RMS_WIN + j) 0) ∧
    (rmsRun vs).rmsSumSq
      = ∑ j in Finset.range (min vs.length RMS_WIN),
          (rmsRun vs).rmsBuf.getD j 0 * (rmsRun vs).rmsBuf.getD j 0 ∧
    (rmsRun vs).rmsSumSq
      = ∑ j in Finset.range (min vs.length RMS_WIN),
          vs.getD (vs.length - min vs.length RMS_WIN + j) 0
            * vs.getD (vs.length - min vs.length RMS_WIN + j) 0 := by
  induction vs using List.reverseRecOn with
  | nil =>
      refine ⟨by simp [rmsRun, rmsInit, RMS_WIN], by simp [rmsRun, rmsInit], ?_, ?_, ?_, ?_⟩ <;>
        simp [rmsRun, rmsInit]
  | append_singleton vs v ih =>
      obtain ⟨ih1, ih2, ih3, ih4, ih5, ih6⟩ := ih
      rw [rmsRun_append]
      by_cases hL : vs.length < RMS_WIN
      · -- under capacity: the if-branch of rmsPush
        have hcnt : (rmsRun vs).rmsCount < RMS_WIN := by omega
        rw [rmsPush_lt_state v (rmsRun vs) hcnt]
        have hhead : (rmsRun vs).rmsHead = vs.length := by
          rw [ih3, Nat.mod_eq_of_lt hL]
        have hmin : min vs.length RMS_WIN = vs.length := by omega
        have hmin' : min (vs ++ [v]).length RMS_WIN = vs.length + 1 := by
          simp only [List.length_append, List.length_singleton]
          simp only [RMS_WIN] at *
          omega
        have hlen' : (vs ++ [v]).length = vs.length + 1 := by simp
        refine ⟨?_, ?_, ?_, ?_, ?_, ?_⟩
        · simp only [List.length_set]; exact ih1
        · simp only [hmin', ih2, hmin]
        · simp only [hlen', hhead]
        · intro j hj
          rw [hmin'] at hj
          dsimp only
          rw [hmin', hlen', hhead]
          have hidx : (vs.length + 1 + RMS_WIN - (vs.length + 1) + j) % RMS_WIN = j := by
            simp only [RMS_WIN] at *
            omega
          rw [hidx, show vs.length + 1 - (vs.length + 1) + j = j from by omega]
          by_cases hjl : j = vs.length
          · subst hjl
            rw [getD_set_eq _ _ _ (by omega), getD_append_last]
          · have hjlt : j < vs.length := by omega
            rw [getD_set_ne _ _ _ _ (by omega), getD_append_lt _ _ _ hjlt]
            have h4 := ih4 j (by omega)
            rw [hmin] at h4
            rw [show vs.length + RMS_WIN - vs.length + j = RMS_WIN + j from by omega] at h4
            rw [Nat.add_mod_left] at h4
            rw [Nat.mod_eq_of_lt (show j < RMS_WIN from by omega)] at h4
            rw [show vs.length - vs.length + j = j from by omega] at h4
            exact h4
        · dsimp only
          rw [hmin', hhead]
          rw [Finset.sum_range_succ]
          rw [getD_set_eq _ _ _ (by omega)]
          have hcongr : ∀ j ∈ Finset.range vs.length,
              ((rmsRun vs).rmsBuf.set vs.length v).getD j 0
                  * ((rmsRun vs).rmsBuf.set vs.length v).getD j 0
                = (rmsRun vs).rmsBuf.getD j 0 * (rmsRun vs).rmsBuf.getD j 0 := by
            intro j hj
            rw [Finset.mem_range] at hj
            rw [getD_set_ne _ _ _ _ (by omega)]
          rw [Finset.sum_congr rfl hcongr, ih5, hmin]
        · dsimp only
          rw [hmin', hlen']
          rw [Finset.sum_range_succ]
          rw [show vs.length + 1 - (vs.length + 1) + vs.length = vs.length from by omega,
            getD_append_last]
          have hcongr : ∀ j ∈ Finset.range vs.length,
              (vs ++ [v]).getD (vs.length + 1 - (vs.length + 1) + j) 0
                  * (vs ++ [v]).getD (vs.length + 1 - (vs.length + 1) + j) 0
                = vs.getD j 0 * vs.getD j 0 := by
            intro j hj
            rw [Finset.mem_range] at hj
            rw [show vs.length + 1 - (vs.length + 1) + j = j from by omega,
              getD_append_lt _ _ _ hj]
          rw [Finset.sum_congr rfl hcongr, ih6, hmin]
          congr 1
          apply Finset.sum_congr rfl
          intro j hj
          rw [show vs.length - vs.length + j = j from by omega]
      · -- at capacity: the else-branch of rmsPush
        have hcnt : ¬ (rmsRun vs).rmsCount < RMS_WIN := by omega
        rw [rmsPush_ge_state v (rmsRun vs) hcnt]
        obtain ⟨d, hd⟩ : ∃ d, vs.length = RMS_WIN + d :=
          ⟨vs.length - RMS_WIN, by omega⟩
        have hmin : min vs.length RMS_WIN = RMS_WIN := by omega
        have hmin' : min (vs ++ [v]).length RMS_WIN = RMS_WIN := by
          simp only [List.length_append, List.length_singleton]; omega
        have hlen' : (vs ++ [v]).length = vs.length + 1 := by simp
        have hcount : (rmsRun vs).rmsCount = RMS_WIN := by rw [ih2, hmin]
        have hold : (rmsRun vs).rmsBuf.getD (vs.length % RMS_WIN) 0
            = vs.getD (vs.length - RMS_WIN) 0 := by
          have h4 := ih4 0 (by simp only [RMS_WIN] at *; omega)
          rw [hmin] at h4
          rw [show vs.length + RMS_WIN - RMS_WIN + 0 = vs.length from by omega] at h4
          rw [show vs.length - RMS_WIN + 0 = vs.length - RMS_WIN from by omega] at h4
          exact h4
        refine ⟨?_, ?_, ?_, ?_, ?_, ?_⟩
        · simp only [List.length_set]; exact ih1
        · simp only [hmin', hcount]
        · rw [ih3, hlen']
          simp only [RMS_WIN] at *
          omega
        · intro j hj
          rw [hmin'] at hj
          dsimp only
          rw [hmin', hlen', ih3]
          rw [show vs.length + 1 + RMS_WIN - RMS_WIN + j = vs.length + 1 + j from by omega]
          by_cases hj24 : j = RMS_WIN - 1
          · subst hj24
            have hidx : (vs.length + 1 + (RMS_WIN - 1)) % RMS_WIN
                = vs.length % RMS_WIN := by
              simp only [RMS_WIN] at *
              omega
            rw [hidx, getD_set_eq _ _ _ (by rw [ih1]; exact Nat.mod_lt _ (by simp only [RMS_WIN]; omega))]
            rw [show vs.length + 1 - RMS_WIN + (RMS_WIN - 1) = vs.length from by
              simp only [RMS_WIN] at *; omega]
            rw [getD_append_last]
          · have hne : (vs.length + 1 + j) % RMS_WIN ≠ vs.length % RMS_WIN := by
              simp only [RMS_WIN] at *
              omega
            rw [getD_set_ne _ _ _ _ (Ne.symm hne)]
            have h4 := ih4 (j + 1) (by simp only [RMS_WIN] at *; omega)
            rw [hmin] at h4
            rw [show vs.length + RMS_WIN - RMS_WIN + (j + 1) = vs.length + 1 + j from by
              omega] at h4
            rw [h4]
            rw [show vs.length - RMS_WIN + (j + 1) = vs.length + 1 - RMS_WIN + j from by
              simp only [RMS_WIN] at *; omega]
            rw [getD_append_lt _ _ _ (by simp only [RMS_WIN] at *; omega)]
        · rw [hmin']
          have hmem : vs.length % RMS_WIN ∈ Finset.range RMS_WIN :=
            Finset.mem_range.mpr (by simp only [RMS_WIN]; omega)
          have hnew : ∀ g : RmsState → ℚ, True := fun _ => trivial
          have hsum_old :
              ∑ j in Finset.range RMS_WIN,
                  (rmsRun vs).rmsBuf.getD j 0 * (rmsRun vs).rmsBuf.getD j 0
                = (rmsRun vs).rmsBuf.getD (vs.length % RMS_WIN) 0
                    * (rmsRun vs).rmsBuf.getD (vs.length % RMS_WIN) 0
                  + ∑ j in (Finset.range RMS_WIN).erase (vs.length % RMS_WIN),
                      (rmsRun vs).rmsBuf.getD j 0 * (rmsRun vs).rmsBuf.getD j 0 :=
            (Finset.add_sum_erase _ _ hmem).symm
          have hsum_new :
              ∑ j in Finset.range RMS_WIN,
                  ((rmsRun vs).rmsBuf.set ((rmsRun vs).rmsHead) v).getD j 0
                    * ((rmsRun vs).rmsBuf.set ((rmsRun vs).rmsHead) v).getD j 0
                = v * v
                  + ∑ j in (Finset.range RMS_WIN).erase (vs.length % RMS_WIN),
                      (rmsRun vs).rmsBuf.getD j 0 * (rmsRun vs).rmsBuf.getD j 0 := by
            rw [← Finset.add_sum_erase _ _ hmem]
            congr 1
            · rw [ih3, getD_set_eq _ _ _ (by rw [ih1]; exact Nat.mod_lt _ (by simp only [RMS_WIN]; omega))]
            · apply Finset.sum_congr rfl
              intro j hj
              rw [Finset.mem_erase] at hj
              rw [ih3, getD_set_ne _ _ _ _ (Ne.symm hj.1)]
          rw [hsum_new, ih5, hmin, hsum_old, ih3]
          ring
        · dsimp only
          rw [hmin', hlen']
          have hd25 : vs.length = 25 + d := by simp only [RMS_WIN] at hd; exact hd
          have hrhs :
              ∑ j in Finset.range RMS_WIN,
                  (vs ++ [v]).getD (vs.length + 1 - RMS_WIN + j) 0
                    * (vs ++ [v]).getD (vs.length + 1 - RMS_WIN + j) 0
                = (∑ j in Finset.range 24,
                    vs.getD (vs.length + 1 - RMS_WIN + j) 0
                      * vs.getD (vs.length + 1 - RMS_WIN + j) 0) + v * v := by
            simp only [RMS_WIN]
            rw [show (25 : ℕ) = 24 + 1 from rfl, Finset.sum_range_succ]
            congr 1
            · apply Finset.sum_congr rfl
              intro j hj
              rw [Finset.mem_range] at hj
              rw [getD_append_lt _ _ _ (by omega)]
            · rw [show vs.length + 1 - (24 + 1) + 24 = vs.length from by omega]
              rw [getD_append_last]
          have hlhs : (rmsRun vs).rmsSumSq
              = vs.getD (vs.length - RMS_WIN) 0 * vs.getD (vs.length - RMS_WIN) 0
                + ∑ j in Finset.range 24,
                    vs.getD (vs.length + 1 - RMS_WIN + j) 0
                      * vs.getD (vs.length + 1 - RMS_WIN + j) 0 := by
            rw [ih6, hmin]
            simp only [RMS_WIN]
            rw [show (25 : ℕ) = 24 + 1 from rfl, Finset.sum_range_succ']
            rw [add_comm]
            congr 1
            apply Finset.sum_congr rfl
            intro j hj
            rw [Finset.mem_range] at hj
            rw [show vs.length - (24 + 1) + (j + 1) = vs.length + 1 - (24 + 1) + j from by
              omega]
          rw [ih3, hold, hrhs, hlhs]
          ring

/-! ## Claim C2 -/

/-- Claim C2: after any sequence of pushes from the initial state,
`rmsSumSq` equals the sum of squares of the occupied buffer slots (slots
`0..rmsCount-1`; all slots once at capacity), `rmsCount` never exceeds
`W = 25`, and `rmsSumSq` is non-negative (exact arithmetic). -/
theorem rms_window_invariant (vs : List ℚ) :
    (rmsRun vs).rmsCount ≤ RMS_WIN ∧
    (rmsRun vs).rmsSumSq
      = ∑ j in Finset.range ((rmsRun vs).rmsCount),
          (rmsRun vs).rmsBuf.getD j 0 * (rmsRun vs).rmsBuf.getD j 0 ∧
    0 ≤ (rmsRun vs).rmsSumSq := by
  obtain ⟨h1, h2, h3, h4, h5, h6⟩ := rmsRun_char vs
  refine ⟨le_trans (le_of_eq h2) (Nat.min_le_right _ _), ?_, ?_⟩
  · rw [h2]
    exact h5
  · rw [h5]
    exact Finset.sum_nonneg fun j _ => mul_self_nonneg _

/-! ## Claim C3 -/

theorem sum_getD_sq (l : List ℚ) :
    ∑ j in Finset.range l.length, l.getD j 0 * l.getD j 0
      = (l.map (fun x => x * x)).sum := by
  induction l with
  | nil => simp
  | cons a t ih =>
      rw [List.length_cons, Finset.sum_range_succ']
      simp only [List.getD_cons_succ, List.getD_cons_zero, List.map_cons, List.sum_cons]
      rw [ih]
      ring

theorem getD_append_ge (l l' : List ℚ) (j : ℕ) (h : l.length ≤ j) :
    (l ++ l').getD j 0 = l'.getD (j - l.length) 0 := by
  simp [List.getD_eq_getElem?_getD, List.getElem?_append, Nat.not_lt.mpr h]

theorem getD_replicate (n j : ℕ) : (List.replicate n (0 : ℚ)).getD j 0 = 0 := by
  rw [List.getD_eq_getElem?_getD, List.getElem?_replicate]
  split <;> rfl

/-- Claim C3: the value returned by `rmsPush` is the radicand of the final
state (the source applies `sqrtf` to it); after exactly `W = 25` pushes the
radicand is the mean of the squares (so the returned RMS is the square root
of the mean square); after at least `W` pushes the radicand — hence the
returned RMS — depends only on the trailing `W` values; and pushing `W`
ones followed by `W` zeros ends with radicand exactly 0, whose square root
is 0, not NaN. -/
theorem rms_window_correctness (vs : List ℚ) :
    (∀ (w : ℚ) (s : RmsState), (rmsPush w s).2 = rmsRet (rmsPush w s).1) ∧
    (vs.length = RMS_WIN →
      rmsRet (rmsRun vs) = (vs.map (fun x => x * x)).sum / (RMS_WIN : ℚ)) ∧
    (RMS_WIN ≤ vs.length →
      rmsRet (rmsRun vs) = rmsRet (rmsRun (vs.drop (vs.length - RMS_WIN)))) ∧
    rmsRet (rmsRun (List.replicate RMS_WIN 1 ++ List.replicate RMS_WIN 0)) = 0 ∧
    Real.sqrt
        ((rmsRet (rmsRun (List.replicate RMS_WIN 1 ++ List.replicate RMS_WIN 0)) : ℚ) : ℝ)
      = 0 := by
  have hpush : ∀ (w : ℚ) (s : RmsState), (rmsPush w s).2 = rmsRet (rmsPush w s).1 := by
    intro w s
    by_cases h : s.rmsCount < RMS_WIN <;> simp [rmsPush, rmsRet, h]
  have hzero_sum :
      (rmsRun (List.replicate RMS_WIN 1 ++ List.replicate RMS_WIN 0)).rmsSumSq = 0 := by
    obtain ⟨z1, z2, z3, z4, z5, z6⟩ :=
      rmsRun_char (List.replicate RMS_WIN 1 ++ List.replicate RMS_WIN 0)
    have hlen0 : (List.replicate RMS_WIN (1 : ℚ) ++ List.replicate RMS_WIN (0 : ℚ)).length
        = RMS_WIN + RMS_WIN := by
      simp
    rw [hlen0] at z6
    rw [show min (RMS_WIN + RMS_WIN) RMS_WIN = RMS_WIN from by omega] at z6
    rw [z6]
    apply Finset.sum_eq_zero
    intro j hj
    rw [show RMS_WIN + RMS_WIN - RMS_WIN + j = RMS_WIN + j from by omega]
    rw [getD_append_ge _ _ _ (by rw [List.length_replicate]; omega)]
    rw [show RMS_WIN + j - (List.replicate RMS_WIN (1 : ℚ)).length = j from by
      rw [List.length_replicate]; omega]
    rw [getD_replicate]
    ring
  have hzeros :
      rmsRet (rmsRun (List.replicate RMS_WIN 1 ++ List.replicate RMS_WIN 0)) = 0 := by
    unfold rmsRet
    rw [hzero_sum, zero_div]
  refine ⟨hpush, ?_, ?_, hzeros, by rw [hzeros]; simp⟩
  · intro hlen
    obtain ⟨h1, h2, h3, h4, h5, h6⟩ := rmsRun_char vs
    have hmin : min vs.length RMS_WIN = RMS_WIN := by omega
    rw [hmin] at h2 h6
    have hnum : (rmsRun vs).rmsSumSq = (vs.map (fun x => x * x)).sum := by
      rw [h6, ← hlen, ← sum_getD_sq]
      apply Finset.sum_congr rfl
      intro j hj
      rw [show vs.length - vs.length + j = j from by omega]
    unfold rmsRet
    rw [h2, hnum, if_neg (by decide)]
  · intro hge
    obtain ⟨h1, h2, h3, h4, h5, h6⟩ := rmsRun_char vs
    obtain ⟨g1, g2, g3, g4, g5, g6⟩ := rmsRun_char (vs.drop (vs.length - RMS_WIN))
    have hdlen : (vs.drop (vs.length - RMS_WIN)).length = RMS_WIN := by
      rw [List.length_drop]
      omega
    have hmin : min vs.length RMS_WIN = RMS_WIN := by omega
    have hmin' : min (vs.drop (vs.length - RMS_WIN)).length RMS_WIN = RMS_WIN := by
      rw [hdlen]; simp
    rw [hmin] at h2 h6
    rw [hmin'] at g2 g6
    have hnum : (rmsRun vs).rmsSumSq = (rmsRun (vs.drop (vs.length - RMS_WIN))).rmsSumSq := by
      rw [h6, g6]
      apply Finset.sum_congr rfl
      intro j hj
      rw [show (vs.drop (vs.length - RMS_WIN)).length - RMS_WIN + j = j from by
        rw [hdlen]; omega]
      rw [getD_drop]
    unfold rmsRet
    rw [h2, g2, hnum]

/-- Witness for C3 on the `W` ones followed by `W` zeros sequence and on a
single full window. -/
theorem rms_window_correctness_witness :
    RMS_WIN ≤ (List.replicate RMS_WIN (1 : ℚ) ++ List.replicate RMS_WIN 0).length ∧
    rmsRet (rmsRun (List.replicate RMS_WIN (1 : ℚ) ++ List.replicate RMS_WIN 0))
      = rmsRet (rmsRun ((List.replicate RMS_WIN (1 : ℚ) ++ List.replicate RMS_WIN 0).drop
          ((List.replicate RMS_WIN (1 : ℚ) ++ List.replicate RMS_WIN 0).length - RMS_WIN))) ∧
    (List.replicate RMS_WIN (1 : ℚ)).length = RMS_WIN ∧
    rmsRet (rmsRun (List.replicate RMS_WIN (1 : ℚ)))
      = ((List.replicate RMS_WIN (1 : ℚ)).map (fun x => x * x)).sum / (RMS_WIN : ℚ) :=
  ⟨by decide, (rms_window_correctness _).2.2.1 (by decide), by decide,
    (rms_window_correctness _).2.1 (by decide)⟩

/-! ## Claim C7 -/

/-- A due sample tick with a successful read and a due publish: the
pipeline advances and the fresh output is published, with
`lastImuPublishMs` set to `now`. -/
theorem loopStep_due_pub (now : ℕ) (m : ℚ) (s : LoopState)
    (hdue : s.nextTick ≤ now)
    (hpub : PUBLISH_EVERY_MS ≤ now - s.lastImuPublishMs) :
    loopStep now (some m) s =
      ({ hp_alpha := s.hp_alpha,
         mag_prev := (pipeStep s.hp_alpha m (projPipe s)).1.mag_prev,
         hp_prev := (pipeStep s.hp_alpha m (projPipe s)).1.hp_prev,
         rms := (pipeStep s.hp_alpha m (projPipe s)).1.rms,
         nextTick := s.nextTick + DT_MS,
         lastImuPublishMs := now }, some (pipeStep s.hp_alpha m (projPipe s)).2) := by
  simp only [loopStep, if_pos hdue, projPipe]
  rw [if_pos hpub]

/-- A due sample tick with a successful read but no due publish: the
pipeline advances, nothing is published. -/
theorem loopStep_due_nopub (now : ℕ) (m : ℚ) (s : LoopState)
    (hdue : s.nextTick ≤ now)
    (hpub : ¬ PUBLISH_EVERY_MS ≤ now - s.lastImuPublishMs) :
    loopStep now (some m) s =
      ({ hp_alpha := s.hp_alpha,
         mag_prev := (pipeStep s.hp_alpha m (projPipe s)).1.mag_prev,
         hp_prev := (pipeStep s.hp_alpha m (projPipe s)).1.hp_prev,
         rms := (pipeStep s.hp_alpha m (projPipe s)).1.rms,
         nextTick := s.nextTick + DT_MS,
         lastImuPublishMs := s.lastImuPublishMs }, none) := by
  simp only [loopStep, if_pos hdue, projPipe]
  rw [if_neg hpub]

/-- On the ideal tick grid starting at `t0 ≥ PUBLISH_EVERY_MS`, the publish
test at tick `i` passes exactly when `i` is divisible by 5. -/
theorem c7_pub_iff (t0 i : ℕ) (h50 : PUBLISH_EVERY_MS ≤ t0) :
    (PUBLISH_EVERY_MS ≤ t0 + DT_MS * i - lastPubOf t0 i) ↔ i % 5 = 0 := by
  rcases Nat.eq_zero_or_pos i with hi | hi
  · subst hi
    rw [lastPubOf, if_pos rfl]
    simp only [PUBLISH_EVERY_MS, DT_MS] at h50 ⊢
    simp only [Nat.mul_zero, Nat.add_zero, Nat.sub_zero]
    simp [h50]
  · rw [lastPubOf, if_neg (by omega)]
    simp only [PUBLISH_EVERY_MS, DT_MS] at h50 ⊢
    omega

theorem c7_lastPub_succ_pub (t0 i : ℕ) (hi : i % 5 = 0) :
    t0 + DT_MS * i = lastPubOf t0 (i + 1) := by
  rw [lastPubOf, if_neg (by omega)]
  simp only [PUBLISH_EVERY_MS, DT_MS]
  omega

theorem c7_lastPub_succ_nopub (t0 i : ℕ) (hi : ¬ i % 5 = 0) :
    lastPubOf t0 i = lastPubOf t0 (i + 1) := by
  rw [lastPubOf, lastPubOf, if_neg (by omega), if_neg (by omega)]
  simp only [PUBLISH_EVERY_MS]
  omega

/-- Main run lemma for C7: over ideally timed all-successful ticks the run
publishes exactly the expected emissions. -/
theorem c7_run_aux (alpha : ℚ) (t0 : ℕ) (h50 : PUBLISH_EVERY_MS ≤ t0) :
    ∀ (mags : List ℚ) (i : ℕ) (p : PipeState),
      loopRun (c7Inputs (t0 + DT_MS * i) mags)
          { hp_alpha := alpha, mag_prev := p.mag_prev, hp_prev := p.hp_prev,
            rms := p.rms, nextTick := t0 + DT_MS * i, lastImuPublishMs := lastPubOf t0 i }
        = expectedEmissions alpha i p mags := by
  intro mags
  induction mags with
  | nil => intro i p; rfl
  | cons m ms ih =>
      intro i p
      have hproj : projPipe
          { hp_alpha := alpha, mag_prev := p.mag_prev, hp_prev := p.hp_prev,
            rms := p.rms, nextTick := t0 + DT_MS * i,
            lastImuPublishMs := lastPubOf t0 i } = p := rfl
      by_cases hi : i % 5 = 0
      · have hpubc : PUBLISH_EVERY_MS ≤ t0 + DT_MS * i - lastPubOf t0 i :=
          (c7_pub_iff t0 i h50).mpr hi
        simp only [c7Inputs, loopRun]
        rw [loopStep_due_pub (t0 + DT_MS * i) m
          { hp_alpha := alpha, mag_prev := p.mag_prev, hp_prev := p.hp_prev,
            rms := p.rms, nextTick := t0 + DT_MS * i, lastImuPublishMs := lastPubOf t0 i }
          (le_refl _) hpubc]
        dsimp only
        rw [hproj]
        rw [show t0 + DT_MS * i + DT_MS = t0 + DT_MS * (i + 1) from by rw [Nat.mul_succ, Nat.add_assoc]]
        rw [c7_lastPub_succ_pub t0 i hi]
        simp only [expectedEmissions, if_pos hi, List.singleton_append]
        exact congrArg (List.cons _) (ih (i + 1) (pipeStep alpha m p).1)
      · have hpubc : ¬ PUBLISH_EVERY_MS ≤ t0 + DT_MS * i - lastPubOf t0 i := by
          intro hc
          exact hi ((c7_pub_iff t0 i h50).mp hc)
        simp only [c7Inputs, loopRun]
        rw [loopStep_due_nopub (t0 + DT_MS * i) m
          { hp_alpha := alpha, mag_prev := p.mag_prev, hp_prev := p.hp_prev,
            rms := p.rms, nextTick := t0 + DT_MS * i, lastImuPublishMs := lastPubOf t0 i }
          (le_refl _) hpubc]
        dsimp only
        rw [hproj]
        rw [show t0 + DT_MS * i + DT_MS = t0 + DT_MS * (i + 1) from by rw [Nat.mul_succ, Nat.add_assoc]]
        rw [c7_lastPub_succ_nopub t0 i hi]
        simp only [expectedEmissions, if_neg hi, List.nil_append]
        exact ih (i + 1) (pipeStep alpha m p).1

theorem expectedEmissions_length (alpha : ℚ) :
    ∀ (mags : List ℚ) (i : ℕ) (p : PipeState),
      (expectedEmissions alpha i p mags).length = expectedCount i mags.length := by
  intro mags
  induction mags with
  | nil => intro i p; rfl
  | cons m ms ih =>
      intro i p
      simp only [expectedEmissions, expectedCount, List.length_append, List.length_cons]
      rw [ih]
      split <;> simp

theorem expectedCount_formula : ∀ (n i : ℕ), expectedCount i n = (n + (i + 4) % 5) / 5 := by
  intro n
  induction n with
  | zero =>
      intro i
      simp only [expectedCount]
      omega
  | succ k ih =>
      intro i
      simp only [expectedCount]
      rw [ih (i + 1)]
      split <;> omega

/-- Claim C7: on the ideal grid of successful sample ticks at times
`t0, t0 + 10, t0 + 20, ...` (with the run starting at `t0 ≥ 50`, i.e. after
the publish reference time 0 is at least one publish period in the past),
the published records are exactly the pipeline outputs of the ticks whose
index is divisible by 5 — one publish per 5 sample ticks — and each
published record is the output computed by that very tick (the most recent
sample tick), not an average; over `N` ticks exactly `(N + 4) / 5` records
are published. -/
theorem publish_decoupling (t0 : ℕ) (mags : List ℚ)
    (h50 : PUBLISH_EVERY_MS ≤ t0) :
    loopRun (c7Inputs t0 mags) (initLoopState t0)
      = expectedEmissions (hpAlpha FS_HZ HP_FC_HZ) 0 pipeInit mags ∧
    (loopRun (c7Inputs t0 mags) (initLoopState t0)).length
      = (mags.length + 4) / 5 := by
  have hmain := c7_run_aux (hpAlpha FS_HZ HP_FC_HZ) t0 h50 mags 0 pipeInit
  rw [show t0 + DT_MS * 0 = t0 from by rw [Nat.mul_zero, Nat.add_zero]] at hmain
  have hstate :
      ({ hp_alpha := hpAlpha FS_HZ HP_FC_HZ, mag_prev := pipeInit.mag_prev,
         hp_prev := pipeInit.hp_prev, rms := pipeInit.rms, nextTick := t0,
         lastImuPublishMs := lastPubOf t0 0 } : LoopState) = initLoopState t0 := rfl
  rw [hstate] at hmain
  refine ⟨hmain, ?_⟩
  rw [hmain, expectedEmissions_length, expectedCount_formula]

/-- Witness for C7: a six-tick run starting at `t0 = 1000` publishes
exactly the expected records (at ticks 0 and 5). -/
theorem publish_decoupling_witness :
    PUBLISH_EVERY_MS ≤ 1000 ∧
    loopRun (c7Inputs 1000 [1, 2, 3, 4, 5, 6]) (initLoopState 1000)
      = expectedEmissions (hpAlpha FS_HZ HP_FC_HZ) 0 pipeInit [1, 2, 3, 4, 5, 6] ∧
    (loopRun (c7Inputs 1000 [1, 2, 3, 4, 5, 6]) (initLoopState 1000)).length = 2 :=
  ⟨by decide, (publish_decoupling 1000 [1, 2, 3, 4, 5, 6] (by decide)).1,
    ((publish_decoupling 1000 [1, 2, 3, 4, 5, 6] (by decide)).2).trans (by norm_num)⟩
